import Mathlib

/-!
# Geffe-style LFSR stream cipher (`Geffy_Cipher/cipher.c`)

A shallow embedding of the keystream generator and of the byte transform of
`process_file`, followed by the properties established about them.

Conventions of the embedding:

* `uint32_t` and `uint8_t` values are natural numbers; a reduction modulo
  `2 ^ 32` or `256` is written wherever the C operation can leave the range.
* A passphrase is the list of the bytes of the C string before its terminating
  NUL, each byte given by its unsigned value; `strlen` is the list length.
* `char` may be a signed or an unsigned type depending on the platform, and the
  key schedule reads the passphrase through `const char *`.  The embedding takes
  the signedness as a parameter `char_signed`.
* The product `i * 0x12345678` is an `int` product; its value is converted to
  `uint32_t` by reduction modulo `2 ^ 32` (two's complement wraparound).
* Paths are lists of bytes like passphrases.  The file system is a list of regular
  files with their contents; what `fopen`, `remove` and `rename` may do is given by an
  environment `Env`, and `process_file` returns the file system and its events.
-/

namespace GeffyCipher

/-! ## Data model -/

/-- Number of registers in the bank (`#define NUM_LFSRS 11`). -/
def NUM_LFSRS : Nat := 11

/-- Size of the read buffer (`#define BUFFER_SIZE 65536`). -/
def BUFFER_SIZE : Nat := 65536

/-- One register: `typedef struct { uint32_t state; uint32_t mask; } LFSR`. -/
structure LFSR where
  state : Nat
  mask : Nat
deriving DecidableEq, Repr, Inhabited

/-! ## Register step -/

/-- The function `step_lfsr`: the returned pair is the output bit and the register
after the call. -/
def step_lfsr (lfsr : LFSR) : Nat × LFSR :=
  let output_bit := (lfsr.state &&& 1) % 256
  let shifted := lfsr.state >>> 1
  if output_bit ≠ 0 then
    (output_bit, { lfsr with state := shifted ^^^ lfsr.mask })
  else
    (output_bit, { lfsr with state := shifted })

/-- The register after `n` successive `step_lfsr` calls. -/
def step_n : Nat → LFSR → LFSR
  | 0, l => l
  | n + 1, l => step_n n (step_lfsr l).2

/-- The bit returned by the `k`-th `step_lfsr` call (counting from 0) on a register. -/
def emitted_bit (l : LFSR) (k : Nat) : Nat := (step_lfsr (step_n k l)).1

/-! ## Key schedule -/

/-- The table `polys` of `init_lfsrs`. -/
def polys : List Nat :=
  [0xB400, 0xE000, 0x80200003, 0x80000057,
   0x80000062, 0x40000018, 0x10000002, 0x20000029,
   0x0080000D, 0x00200001, 0x00080005]

/-- Value of the `char` object holding the byte `b`: on a platform whose `char` is
signed the bytes `128..255` are the negative values `-128..-1`. -/
def char_value (char_signed : Bool) (b : Nat) : Int :=
  if char_signed && decide (128 ≤ b) then (b : Int) - 256 else (b : Int)

/-- Conversion of an integer value to `uint32_t`. -/
def to_uint32 (x : Int) : Nat := (x % 4294967296).toNat

/-- One pass of the inner loop body `seed = (seed << 5) ^ seed ^ key[k]`. -/
def mix_byte (char_signed : Bool) (seed : Nat) (c : Nat) : Nat :=
  ((seed <<< 5) % 2 ^ 32) ^^^ seed ^^^ to_uint32 (char_value char_signed c)

/-- The inner loop of `init_lfsrs` over the bytes of the passphrase. -/
def mix_key (char_signed : Bool) (key : List Nat) (seed : Nat) : Nat :=
  key.foldl (mix_byte char_signed) seed

/-- The operand `(i * 0x12345678)` of the XOR with `seed`: the `int` product
converted to `uint32_t`. -/
def index_const (i : Nat) : Nat := to_uint32 ((i : Int) * 0x12345678)

/-- The value of `seed` just before the zero test, for register `i`. -/
def raw_seed (char_signed : Bool) (key : List Nat) (i : Nat) : Nat :=
  mix_key char_signed key 0x5A5A5A5A ^^^ index_const i

/-- The value stored in `lfsrs[i].state` by `init_lfsrs`. -/
def lfsr_seed (char_signed : Bool) (key : List Nat) (i : Nat) : Nat :=
  let seed := raw_seed char_signed key i
  if seed = 0 then 1 else seed

/-- The function `init_lfsrs`: the eleven registers it writes, in index order. -/
def init_lfsrs (char_signed : Bool) (key : List Nat) : List LFSR :=
  (List.range NUM_LFSRS).map fun i =>
    { state := lfsr_seed char_signed key i, mask := polys.getD i 0 }

/-! ## Combiner and keystream byte -/

/-- The function `geffe_bit` on `uint8_t` arguments. -/
def geffe_bit (control input1 input0 : Nat) : Nat :=
  ((control &&& input1) ^^^ ((if control = 0 then 1 else 0) &&& input0)) % 256

/-- The combination of the eleven fresh bits `b[0..10]` into `final_bit`. -/
def final_bit (b : List Nat) : Nat :=
  let geffe_A := geffe_bit (b.getD 0 0) (b.getD 1 0) (b.getD 2 0)
  let geffe_B := geffe_bit (b.getD 3 0) (b.getD 4 0) (b.getD 5 0)
  let geffe_C := geffe_bit (b.getD 6 0) (b.getD 7 0) (b.getD 8 0)
  (geffe_A ^^^ geffe_B ^^^ geffe_C ^^^ b.getD 9 0 ^^^ b.getD 10 0) % 256

/-- One pass of `b[i] = step_lfsr(&lfsrs[i])`. -/
def step_register (st : List Nat × List LFSR) (i : Nat) : List Nat × List LFSR :=
  match st.2[i]? with
  | some r => ((st.1.set i (step_lfsr r).1), (st.2.set i (step_lfsr r).2))
  | none => st

/-- The loop `for (i = 0; i < NUM_LFSRS; i++) b[i] = step_lfsr(&lfsrs[i])`: the
array `b` and the bank after the loop. -/
def step_all (lfsrs : List LFSR) : List Nat × List LFSR :=
  (List.range NUM_LFSRS).foldl step_register (List.replicate NUM_LFSRS 0, lfsrs)

/-- The outer loop of `get_keystream_byte` with `n` iterations left. -/
def keystream_bits : Nat → Nat → List LFSR → Nat × List LFSR
  | 0, result_byte, lfsrs => (result_byte, lfsrs)
  | n + 1, result_byte, lfsrs =>
    let st := step_all lfsrs
    keystream_bits n (((result_byte <<< 1) ||| final_bit st.1) % 256) st.2

/-- The function `get_keystream_byte`: the byte returned and the bank after the call. -/
def get_keystream_byte (lfsrs : List LFSR) : Nat × List LFSR :=
  keystream_bits 8 0 lfsrs

/-- The first `n` bytes returned by successive `get_keystream_byte` calls. -/
def keystream : List LFSR → Nat → List Nat
  | _, 0 => []
  | g, n + 1 => (get_keystream_byte g).1 :: keystream (get_keystream_byte g).2 n

/-- The bank after `n` successive `get_keystream_byte` calls. -/
def bank_after : List LFSR → Nat → List LFSR
  | g, 0 => g
  | g, n + 1 => bank_after (get_keystream_byte g).2 n

/-! ## The transform of `process_file` -/

/-- The loop over one buffer: `buffer[i] = buffer[i] ^ get_keystream_byte(generators)`.
Returns the buffer after the loop and the bank. -/
def xor_buffer : List LFSR → List Nat → List Nat × List LFSR
  | g, [] => ([], g)
  | g, x :: xs =>
    let kb := get_keystream_byte g
    let rest := xor_buffer kb.2 xs
    (((x ^^^ kb.1) % 256) :: rest.1, rest.2)

/-- The main loop of `process_file` run on the successive results of `fread`: a
result of length 0 ends the loop, any other buffer is transformed and written.
Returns the bytes written and the bank. -/
def process_chunks : List LFSR → List (List Nat) → List Nat × List LFSR
  | g, [] => ([], g)
  | g, chunk :: rest =>
    if chunk.length = 0 then ([], g)
    else
      let r := xor_buffer g chunk
      let rs := process_chunks r.2 rest
      (r.1 ++ rs.1, rs.2)

/-- The successive results of `fread(buffer, 1, n, fin)` on a file holding `data`:
every read returns the next `n` bytes, the last one what is left.  The first
argument bounds the number of reads. -/
def fread_chunks : Nat → Nat → List Nat → List (List Nat)
  | 0, _, _ => []
  | fuel + 1, n, data =>
    if data.length = 0 ∨ n = 0 then []
    else data.take n :: fread_chunks fuel n (data.drop n)

/-- The bytes `process_file` writes for the passphrase `key` and a file holding
`data`, read through a buffer of `n` bytes. -/
def transform_with (n : Nat) (char_signed : Bool) (key : List Nat) (data : List Nat) :
    List Nat :=
  (process_chunks (init_lfsrs char_signed key) (fread_chunks data.length n data)).1

/-- The bytes `process_file` writes for the passphrase `key` and a file holding `data`. -/
def transform (char_signed : Bool) (key : List Nat) (data : List Nat) : List Nat :=
  transform_with BUFFER_SIZE char_signed key data

/-- The byte-at-a-time transform: byte `i` of the data XORed with keystream byte `i`. -/
def xor_keystream (g : List LFSR) (data : List Nat) : List Nat :=
  List.zipWith (fun x k => x ^^^ k) data (keystream g data.length)

/-! ## Reference definitions used in the statements -/

/-- The selector in the words of the specification: `a` when the control bit is 1
and `b` when it is 0. -/
def sel (c a b : Nat) : Nat := if c = 1 then a else b

/-- The combiner output of clock `k` (the first clock is 0) on a bank: `final_bit`
applied to the bits the registers emit at that clock, in index order. -/
def combiner_output (g : List LFSR) (k : Nat) : Nat :=
  final_bit (g.map fun l => emitted_bit l k)

/-- The accumulation `result_byte = (result_byte << 1) | bit` run `n` times on the
bits `z 0`, `z 1`, ... -/
def pack_bits : Nat → Nat → (Nat → Nat) → Nat
  | 0, r, _ => r
  | n + 1, r, z => pack_bits n (((r <<< 1) ||| z 0) % 256) fun k => z (k + 1)

/-- The accumulator of the key schedule in the words of the specification:
`acc_0 = 0x5A5A5A5A` and `acc_k = ((acc_{k-1} << 5) XOR acc_{k-1} XOR b_k) mod 2^32`. -/
def acc_ref (bs : List Nat) : Nat :=
  bs.foldl (fun acc b => ((acc <<< 5) ^^^ acc ^^^ b) % 2 ^ 32) 0x5A5A5A5A

/-- The seed in the words of the specification: `s = acc_n XOR ((i * 0x12345678) mod 2^32)`,
replaced by 1 when it is 0. -/
def seed_ref (bs : List Nat) (i : Nat) : Nat :=
  let s := acc_ref bs ^^^ ((i * 0x12345678) % 2 ^ 32)
  if s = 0 then 1 else s

/-- The bank `generators` when the main loop of `process_file` ends, for the
passphrase `key` and a file holding `data`. -/
def transform_bank (char_signed : Bool) (key : List Nat) (data : List Nat) : List LFSR :=
  (process_chunks (init_lfsrs char_signed key)
    (fread_chunks data.length BUFFER_SIZE data)).2

/-- The `int` product `i * 0x12345678` of `init_lfsrs`, as a mathematical integer. -/
def index_product (i : Nat) : Int := (i : Int) * 0x12345678

/-- The largest value of a 32-bit `int`. -/
def INT_MAX : Int := 2147483647

/-- The smallest value of a 32-bit `int`. -/
def INT_MIN : Int := -2147483648

/-! ## Files of `process_file` -/

/-- The string `snprintf(temp_filename, sizeof(temp_filename), "%s.tmp", filename)`
leaves in the 1024-byte buffer `temp_filename`: at most 1023 characters of the path
followed by `.tmp`. -/
def temp_filename (filename : List Nat) : List Nat :=
  (filename ++ [0x2E, 0x74, 0x6D, 0x70]).take (1024 - 1)

/-- The path `a/a/.../a` of 1023 characters: 512 one-letter components. -/
def long_path : List Nat :=
  (List.range 1023).map fun i => if i % 2 = 0 then 0x61 else 0x2F

/-- The regular files of a file system: path and contents. -/
abbrev FileSystem := List (List Nat × List Nat)

/-- Contents of the file at a path, if there is one. -/
def fs_lookup (fs : FileSystem) (p : List Nat) : Option (List Nat) :=
  (fs.find? fun e => decide (e.1 = p)).map fun e => e.2

/-- The file system without the file at a path. -/
def fs_erase (fs : FileSystem) (p : List Nat) : FileSystem :=
  fs.filter fun e => !decide (e.1 = p)

/-- The file system with the file at a path created or replaced. -/
def fs_store (fs : FileSystem) (p : List Nat) (d : List Nat) : FileSystem :=
  (p, d) :: fs_erase fs p

/-- What the environment allows: opening an existing file for reading, creating or
truncating a file for writing, removing an existing file, renaming an existing file. -/
structure Env where
  can_read : List Nat → Bool
  can_create : List Nat → Bool
  can_remove : List Nat → Bool
  can_rename : List Nat → List Nat → Bool

/-- The messages and the file-system calls of `process_file` that the properties
speak of. -/
inductive Event where
  | perror_input
  | perror_temp
  | processing
  | remove_call (path : List Nat)
  | rename_call (src dst : List Nat)
  | delete_failed
  | rename_failed
  | success
deriving DecidableEq, Repr

/-- The function `process_file` on a file system: the file system after the call and
the events of the call in order.  `fopen(temp_filename, "wb")` runs before the test of
`fin` and creates or truncates the temporary file when the environment allows it; the
bytes read are those the input path holds after that call. -/
def process_file (env : Env) (char_signed : Bool) (fs : FileSystem)
    (filename : List Nat) (key : List Nat) : FileSystem × List Event :=
  let temp := temp_filename filename
  let fin := (fs_lookup fs filename).isSome && env.can_read filename
  let fout := env.can_create temp
  let fs1 := if fout then fs_store fs temp [] else fs
  if !fin then (fs1, [Event.perror_input])
  else if !fout then (fs1, [Event.perror_temp])
  else
    let data := (fs_lookup fs1 filename).getD []
    let fs2 := fs_store fs1 temp (transform char_signed key data)
    if !((fs_lookup fs2 filename).isSome && env.can_remove filename) then
      (fs2, [Event.processing, Event.remove_call filename, Event.delete_failed])
    else
      let fs3 := fs_erase fs2 filename
      match fs_lookup fs3 temp with
      | some out =>
        if env.can_rename temp filename then
          (fs_store (fs_erase fs3 temp) filename out,
            [Event.processing, Event.remove_call filename,
              Event.rename_call temp filename, Event.success])
        else
          (fs3, [Event.processing, Event.remove_call filename,
            Event.rename_call temp filename, Event.rename_failed])
      | none =>
        (fs3, [Event.processing, Event.remove_call filename,
          Event.rename_call temp filename, Event.rename_failed])

/-- An environment that allows every call. -/
def permissive : Env :=
  { can_read := fun _ => true, can_create := fun _ => true,
    can_remove := fun _ => true, can_rename := fun _ _ => true }

/-! ## Bit assignments of the combiner -/

/-- The array `b[0..10]` holding the bits of an assignment. -/
def bits_of (f : Nat → Bool) : List Nat :=
  (List.range NUM_LFSRS).map fun i => (f i).toNat

/-- The assignment with bit `j` flipped. -/
def flip_at (f : Nat → Bool) (j : Nat) : Nat → Bool :=
  fun i => if i = j then !f i else f i

section Generic
seal get_keystream_byte

/-! ## Bitwise facts -/

theorem xor_mod_two_pow (a b n : Nat) :
    (a ^^^ b) % 2 ^ n = (a % 2 ^ n) ^^^ (b % 2 ^ n) := by
  apply Nat.eq_of_testBit_eq
  intro i
  simp only [Nat.testBit_mod_two_pow, Nat.testBit_xor]
  by_cases h : i < n <;> simp [h]

theorem xor_lt_256 {x k : Nat} (hx : x < 256) (hk : k < 256) : x ^^^ k < 256 :=
  @Nat.xor_lt_two_pow x k 8 hx hk

theorem xor_byte_twice (x k : Nat) (hx : x < 256) :
    (((x ^^^ k) % 256) ^^^ k) % 256 = x := by
  have h1 : (((x ^^^ k) % 2 ^ 8) ^^^ k) % 2 ^ 8 = ((x ^^^ k) ^^^ k) % 2 ^ 8 := by
    rw [xor_mod_two_pow, Nat.mod_mod, ← xor_mod_two_pow]
  have h2 : (x ^^^ k) ^^^ k = x := Nat.xor_cancel_right k x
  rw [h2] at h1
  have h3 : x % 2 ^ 8 = x := Nat.mod_eq_of_lt hx
  rw [h3] at h1
  exact h1

/-! ## Keystream and buffer loop -/

theorem keystream_length (g : List LFSR) (n : Nat) : (keystream g n).length = n := by
  induction n generalizing g with
  | zero => rfl
  | succ n ih => simp only [keystream, List.length_cons, ih]

theorem keystream_add (g : List LFSR) (m n : Nat) :
    keystream g (m + n) = keystream g m ++ keystream (bank_after g m) n := by
  induction m generalizing g with
  | zero =>
    rw [Nat.zero_add]
    rfl
  | succ m ih =>
    have h : m + 1 + n = (m + n) + 1 := by omega
    rw [h]
    show (get_keystream_byte g).1 :: keystream (get_keystream_byte g).2 (m + n) =
      ((get_keystream_byte g).1 :: keystream (get_keystream_byte g).2 m) ++
        keystream (bank_after (get_keystream_byte g).2 m) n
    rw [ih, List.cons_append]

theorem bank_after_add (g : List LFSR) (m n : Nat) :
    bank_after g (m + n) = bank_after (bank_after g m) n := by
  induction m generalizing g with
  | zero =>
    rw [Nat.zero_add]
    rfl
  | succ m ih =>
    have h : m + 1 + n = (m + n) + 1 := by omega
    rw [h]
    show bank_after (get_keystream_byte g).2 (m + n) =
      bank_after (bank_after (get_keystream_byte g).2 m) n
    rw [ih]

/-- The buffer loop produces the data XORed with the keystream, reduced to a byte,
and leaves the bank advanced by one keystream byte per data byte. -/
theorem xor_buffer_eq (g : List LFSR) (xs : List Nat) :
    xor_buffer g xs =
      (List.zipWith (fun x k => (x ^^^ k) % 256) xs (keystream g xs.length),
        bank_after g xs.length) := by
  induction xs generalizing g with
  | nil => rfl
  | cons x xs ih =>
    simp only [xor_buffer, keystream, bank_after, ih, List.length_cons, List.zipWith_cons_cons]

theorem xor_buffer_append (g : List LFSR) (xs ys : List Nat) :
    xor_buffer g (xs ++ ys) =
      ((xor_buffer g xs).1 ++ (xor_buffer (xor_buffer g xs).2 ys).1,
        (xor_buffer (xor_buffer g xs).2 ys).2) := by
  induction xs generalizing g with
  | nil => rfl
  | cons x xs ih =>
    show ((x ^^^ (get_keystream_byte g).1) % 256 ::
        (xor_buffer (get_keystream_byte g).2 (xs ++ ys)).1,
        (xor_buffer (get_keystream_byte g).2 (xs ++ ys)).2) = _
    rw [ih]
    rfl

/-- With no empty read before the end, the chunked loop equals one pass of the
buffer loop over the whole data. -/
theorem process_chunks_eq_xor_buffer (g : List LFSR) (chunks : List (List Nat))
    (hne : ∀ c ∈ chunks, c ≠ []) :
    process_chunks g chunks = xor_buffer g chunks.flatten := by
  induction chunks generalizing g with
  | nil => rfl
  | cons c cs ih =>
    have hc : c ≠ [] := hne c (List.mem_cons_self _ _)
    have hlen : ¬ c.length = 0 := by
      intro h
      exact hc (List.length_eq_zero.mp h)
    have hcs : ∀ d ∈ cs, d ≠ [] := fun d hd => hne d (List.mem_cons_of_mem _ hd)
    simp only [process_chunks, hlen, if_false, List.flatten_cons]
    rw [ih _ hcs, xor_buffer_append]

/-- The reads of `fread_chunks` are never empty. -/
theorem fread_chunks_ne_nil (fuel n : Nat) (data : List Nat) :
    ∀ c ∈ fread_chunks fuel n data, c ≠ [] := by
  induction fuel generalizing data with
  | zero => simp [fread_chunks]
  | succ fuel ih =>
    intro c hc
    unfold fread_chunks at hc
    split at hc
    · simp at hc
    · rename_i hcond
      have hd : data ≠ [] := by
        intro h
        apply hcond
        left
        simp [h]
      have hn : n ≠ 0 := fun h => hcond (Or.inr h)
      rcases List.mem_cons.mp hc with h | h
      · subst h
        intro ht
        rcases List.take_eq_nil_iff.mp ht with h0 | h0
        · exact hn h0
        · exact hd h0
      · exact ih _ c h

/-- With a buffer of at least one byte and as many reads as there are bytes, the
reads of `fread_chunks` cover the whole data. -/
theorem fread_chunks_flatten (fuel n : Nat) (data : List Nat) (hn : 1 ≤ n)
    (hfuel : data.length ≤ fuel) : (fread_chunks fuel n data).flatten = data := by
  induction fuel generalizing data with
  | zero =>
    have : data = [] := List.length_eq_zero.mp (by omega)
    simp [fread_chunks, this]
  | succ fuel ih =>
    unfold fread_chunks
    split
    · rename_i hcond
      rcases hcond with h | h
      · simp [List.length_eq_zero.mp h]
      · omega
    · rename_i hcond
      have hpos : 0 < data.length := by
        rcases Nat.eq_zero_or_pos data.length with h | h
        · exact absurd (Or.inl h) hcond
        · exact h
      have hdrop : (data.drop n).length ≤ fuel := by
        rw [List.length_drop]
        omega
      rw [List.flatten_cons, ih _ hdrop, List.take_append_drop]

theorem get_keystream_byte_lt (g : List LFSR) : (get_keystream_byte g).1 < 256 := by
  simp only [get_keystream_byte, keystream_bits]
  exact Nat.mod_lt _ (by decide)

theorem keystream_lt (g : List LFSR) (n : Nat) : ∀ k ∈ keystream g n, k < 256 := by
  induction n generalizing g with
  | zero =>
    intro k hk
    simp only [keystream, List.not_mem_nil] at hk
  | succ n ih =>
    intro k hk
    simp only [keystream, List.mem_cons] at hk
    rcases hk with h | h
    · rw [h]
      exact get_keystream_byte_lt g
    · exact ih _ k h

theorem zipWith_xor_mod (xs ks : List Nat) (hx : ∀ x ∈ xs, x < 256)
    (hk : ∀ k ∈ ks, k < 256) :
    List.zipWith (fun x k => (x ^^^ k) % 256) xs ks =
      List.zipWith (fun x k => x ^^^ k) xs ks := by
  induction xs generalizing ks with
  | nil => simp
  | cons x xs ih =>
    cases ks with
    | nil => simp
    | cons k ks =>
      have hx0 : x < 256 := hx x (List.mem_cons_self _ _)
      have hk0 : k < 256 := hk k (List.mem_cons_self _ _)
      simp only [List.zipWith_cons_cons]
      rw [Nat.mod_eq_of_lt (xor_lt_256 hx0 hk0),
        ih ks (fun y hy => hx y (List.mem_cons_of_mem _ hy))
          (fun y hy => hk y (List.mem_cons_of_mem _ hy))]

theorem zipWith_xor_twice (xs ks : List Nat) (hx : ∀ x ∈ xs, x < 256)
    (hlen : xs.length ≤ ks.length) :
    List.zipWith (fun x k => (x ^^^ k) % 256)
      (List.zipWith (fun x k => (x ^^^ k) % 256) xs ks) ks = xs := by
  induction xs generalizing ks with
  | nil => simp
  | cons x xs ih =>
    cases ks with
    | nil => simp at hlen
    | cons k ks =>
      simp only [List.zipWith_cons_cons, List.length_cons] at hlen ⊢
      rw [xor_byte_twice x k (hx x (List.mem_cons_self _ _)),
        ih ks (fun y hy => hx y (List.mem_cons_of_mem _ hy)) (by omega)]

/-- The bytes written by the transform, for any buffer size of at least one byte. -/
theorem transform_with_eq (n : Nat) (hn : 1 ≤ n) (cs : Bool) (key data : List Nat) :
    transform_with n cs key data =
      List.zipWith (fun x k => (x ^^^ k) % 256) data
        (keystream (init_lfsrs cs key) data.length) := by
  unfold transform_with
  rw [process_chunks_eq_xor_buffer _ _ (fread_chunks_ne_nil _ _ _),
    fread_chunks_flatten _ _ _ hn (Nat.le_refl _), xor_buffer_eq]

theorem transform_with_length (n : Nat) (hn : 1 ≤ n) (cs : Bool) (key data : List Nat) :
    (transform_with n cs key data).length = data.length := by
  rw [transform_with_eq n hn, List.length_zipWith, keystream_length, Nat.min_self]

/-! ## The transform of `process_file`: involution, chunking, length -/

theorem xor_keystream_getElem? (g : List LFSR) (data : List Nat) (i : Nat)
    (hi : i < data.length) :
    (xor_keystream g data)[i]? =
      some (data.getD i 0 ^^^ (keystream g data.length).getD i 0) := by
  have hk : i < (keystream g data.length).length := by
    rw [keystream_length]
    exact hi
  unfold xor_keystream
  rw [List.getElem?_zipWith, List.getElem?_eq_getElem hi, List.getElem?_eq_getElem hk,
    List.getD_eq_getElem _ _ hi, List.getD_eq_getElem _ _ hk]

theorem mem_flatten_lt (chunks : List (List Nat))
    (hb : ∀ c ∈ chunks, ∀ x ∈ c, x < 256) : ∀ x ∈ chunks.flatten, x < 256 := by
  intro x hx
  rcases List.mem_flatten.mp hx with ⟨c, hc, hxc⟩
  exact hb c hc x hxc

theorem process_chunks_eq_xor_keystream (g : List LFSR) (chunks : List (List Nat))
    (hne : ∀ c ∈ chunks, c ≠ []) (hb : ∀ c ∈ chunks, ∀ x ∈ c, x < 256) :
    (process_chunks g chunks).1 = xor_keystream g chunks.flatten := by
  rw [process_chunks_eq_xor_buffer g chunks hne, xor_buffer_eq]
  exact zipWith_xor_mod _ _ (mem_flatten_lt chunks hb) (keystream_lt _ _)

/-- C1. Involution: for every byte sequence `data` and every passphrase `key`,
running the transform of `process_file` on `data` and then again, with the same
passphrase, on the result gives back exactly `data`. -/
theorem transform_involution (cs : Bool) (key data : List Nat)
    (hdata : ∀ x ∈ data, x < 256) :
    transform cs key (transform cs key data) = data := by
  have hn : 1 ≤ BUFFER_SIZE := by decide
  unfold transform
  rw [transform_with_eq BUFFER_SIZE hn cs key (transform_with BUFFER_SIZE cs key data),
    transform_with_length BUFFER_SIZE hn, transform_with_eq BUFFER_SIZE hn cs key data]
  exact zipWith_xor_twice data _ hdata (by rw [keystream_length])

/-- The involution at the passphrase `bu8` and the three bytes `72 105 33`. -/
theorem transform_involution_witness :
    (∀ x ∈ [72, 105, 33], x < 256) ∧
      transform true [0x62, 0x75, 0x38] (transform true [0x62, 0x75, 0x38] [72, 105, 33]) =
        [72, 105, 33] :=
  ⟨by decide, transform_involution true [0x62, 0x75, 0x38] [72, 105, 33] (by decide)⟩

/-- C2. Chunking is not significant: for every passphrase and every split of the
input into non-empty reads, the bytes written by the chunked loop of `process_file`
are the input XORed byte for byte with the keystream of a freshly initialised bank;
byte `i` of the output is `M[i] XOR keystream[i]`; and reading the same input
through a buffer of any size `n ≥ 1` writes the same bytes. -/
theorem chunked_loop_eq_bytewise (cs : Bool) (key : List Nat) (chunks : List (List Nat))
    (hne : ∀ c ∈ chunks, c ≠ []) (hb : ∀ c ∈ chunks, ∀ x ∈ c, x < 256) :
    (process_chunks (init_lfsrs cs key) chunks).1 =
        xor_keystream (init_lfsrs cs key) chunks.flatten ∧
      (∀ i, i < chunks.flatten.length →
        (process_chunks (init_lfsrs cs key) chunks).1[i]? =
          some (chunks.flatten.getD i 0 ^^^
            (keystream (init_lfsrs cs key) chunks.flatten.length).getD i 0)) ∧
      (∀ n, 1 ≤ n →
        transform_with n cs key chunks.flatten =
          (process_chunks (init_lfsrs cs key) chunks).1) := by
  have h1 := process_chunks_eq_xor_keystream (init_lfsrs cs key) chunks hne hb
  refine ⟨h1, ?_, ?_⟩
  · intro i hi
    rw [h1]
    exact xor_keystream_getElem? _ _ i hi
  · intro n hn
    rw [h1, transform_with_eq n hn]
    exact zipWith_xor_mod _ _ (mem_flatten_lt chunks hb) (keystream_lt _ _)

/-- The chunked loop at the passphrase `bu8` on the reads `72 105` and `33`. -/
theorem chunked_loop_eq_bytewise_witness :
    (∀ c ∈ [[72, 105], [33]], c ≠ []) ∧ (∀ c ∈ [[72, 105], [33]], ∀ x ∈ c, x < 256) ∧
      (process_chunks (init_lfsrs true [0x62, 0x75, 0x38]) [[72, 105], [33]]).1 =
        xor_keystream (init_lfsrs true [0x62, 0x75, 0x38]) [72, 105, 33] :=
  ⟨by decide, by decide,
    (chunked_loop_eq_bytewise true [0x62, 0x75, 0x38] [[72, 105], [33]]
      (by decide) (by decide)).1⟩

/-- C3. Length preservation: for every passphrase and every input, whatever its
length (0, 1, 65535, 65536, 65537 included), the transform of `process_file`
writes exactly as many bytes as the input holds. -/
theorem transform_length (cs : Bool) (key data : List Nat) :
    (transform cs key data).length = data.length :=
  transform_with_length BUFFER_SIZE (by decide) cs key data

end Generic

/-! ## Register step -/

theorem step_lfsr_bit (l : LFSR) : (step_lfsr l).1 = l.state % 2 := by
  have h : l.state % 2 < 2 := Nat.mod_lt _ (by decide)
  unfold step_lfsr
  simp only [Nat.and_one_is_mod]
  split <;> omega

theorem step_lfsr_bit_lt (l : LFSR) : (step_lfsr l).1 < 2 := by
  rw [step_lfsr_bit]
  exact Nat.mod_lt _ (by decide)

theorem step_lfsr_mask (l : LFSR) : (step_lfsr l).2.mask = l.mask := by
  unfold step_lfsr
  dsimp only
  split <;> rfl

theorem step_lfsr_state_odd (l : LFSR) (h : l.state % 2 = 1) :
    (step_lfsr l).2.state = (l.state >>> 1) ^^^ l.mask := by
  unfold step_lfsr
  simp only [Nat.and_one_is_mod, h]
  rfl

theorem step_lfsr_state_even (l : LFSR) (h : l.state % 2 = 0) :
    (step_lfsr l).2.state = l.state >>> 1 := by
  unfold step_lfsr
  simp only [Nat.and_one_is_mod, h]
  rfl

theorem shiftRight_one_lt {s : Nat} (hs : s < 2 ^ 32) : s >>> 1 < 2 ^ 32 := by
  rw [Nat.shiftRight_eq_div_pow]
  exact Nat.lt_of_le_of_lt (Nat.div_le_self _ _) hs

theorem step_lfsr_state_lt (l : LFSR) (hs : l.state < 2 ^ 32) (hm : l.mask < 2 ^ 32) :
    (step_lfsr l).2.state < 2 ^ 32 := by
  rcases Nat.mod_two_eq_zero_or_one l.state with h | h
  · rw [step_lfsr_state_even l h]
    exact shiftRight_one_lt hs
  · rw [step_lfsr_state_odd l h]
    exact Nat.xor_lt_two_pow (shiftRight_one_lt hs) hm

/-- C9. Register step contract: for every 32-bit state `s` and mask `m`, `step_lfsr`
returns the least-significant bit of `s`, a value in `{0, 1}`; it leaves the state
equal to `(s >> 1) XOR m` when that bit is 1 and to `s >> 1` when it is 0; the state
stays a 32-bit value and the mask is unchanged. -/
theorem step_lfsr_contract (s m : Nat) (hs : s < 2 ^ 32) (hm : m < 2 ^ 32) :
    (step_lfsr ⟨s, m⟩).1 = s % 2 ∧ (step_lfsr ⟨s, m⟩).1 < 2 ∧
      (s % 2 = 1 → (step_lfsr ⟨s, m⟩).2.state = (s >>> 1) ^^^ m) ∧
      (s % 2 = 0 → (step_lfsr ⟨s, m⟩).2.state = s >>> 1) ∧
      (step_lfsr ⟨s, m⟩).2.state < 2 ^ 32 ∧
      (step_lfsr ⟨s, m⟩).2.mask = m :=
  ⟨step_lfsr_bit ⟨s, m⟩, step_lfsr_bit_lt ⟨s, m⟩, step_lfsr_state_odd ⟨s, m⟩,
    step_lfsr_state_even ⟨s, m⟩, step_lfsr_state_lt ⟨s, m⟩ hs hm, step_lfsr_mask ⟨s, m⟩⟩

/-- The step contract at state `0x4760A9ED` and mask `0xE000`. -/
theorem step_lfsr_contract_witness :
    (0x4760a9ed < 2 ^ 32) ∧ (0xE000 < 2 ^ 32) ∧
      (step_lfsr ⟨0x4760a9ed, 0xE000⟩).1 = 1 ∧
      (step_lfsr ⟨0x4760a9ed, 0xE000⟩).2.state = (0x4760a9ed >>> 1) ^^^ 0xE000 :=
  ⟨by decide, by decide,
    (step_lfsr_contract 0x4760a9ed 0xE000 (by decide) (by decide)).1,
    (step_lfsr_contract 0x4760a9ed 0xE000 (by decide) (by decide)).2.2.1 (by decide)⟩

/-! ## Combiner -/

theorem geffe_bit_bool (c a b : Bool) :
    geffe_bit c.toNat a.toNat b.toNat = (bif c then a else b).toNat ∧
      sel c.toNat a.toNat b.toNat = (bif c then a else b).toNat := by
  revert c a b
  decide

theorem xor_five_bool (x y z u v : Bool) :
    (x.toNat ^^^ y.toNat ^^^ z.toNat ^^^ u.toNat ^^^ v.toNat) % 256 < 2 ∧
      (x.toNat ^^^ y.toNat ^^^ z.toNat ^^^ u.toNat ^^^ v.toNat) % 256 =
        x.toNat ^^^ y.toNat ^^^ z.toNat ^^^ u.toNat ^^^ v.toNat := by
  revert x y z u v
  decide

/-- C7. Combiner correctness: for all `2 ^ 11` tuples of bits, the bit that
`get_keystream_byte` computes from `geffe_bit` and the final XOR is 0 or 1 and equals
`sel b0 b1 b2 XOR sel b3 b4 b5 XOR sel b6 b7 b8 XOR b9 XOR b10`. -/
theorem combiner_correct :
    ∀ b0 b1 b2 b3 b4 b5 b6 b7 b8 b9 b10 : Bool,
      final_bit [b0.toNat, b1.toNat, b2.toNat, b3.toNat, b4.toNat, b5.toNat, b6.toNat,
          b7.toNat, b8.toNat, b9.toNat, b10.toNat] < 2 ∧
        final_bit [b0.toNat, b1.toNat, b2.toNat, b3.toNat, b4.toNat, b5.toNat, b6.toNat,
            b7.toNat, b8.toNat, b9.toNat, b10.toNat] =
          sel b0.toNat b1.toNat b2.toNat ^^^ sel b3.toNat b4.toNat b5.toNat ^^^
            sel b6.toNat b7.toNat b8.toNat ^^^ b9.toNat ^^^ b10.toNat := by
  intro b0 b1 b2 b3 b4 b5 b6 b7 b8 b9 b10
  have hA := geffe_bit_bool b0 b1 b2
  have hB := geffe_bit_bool b3 b4 b5
  have hC := geffe_bit_bool b6 b7 b8
  unfold final_bit
  simp only [List.getD_cons_zero, List.getD_cons_succ]
  rw [hA.1, hB.1, hC.1, hA.2, hB.2, hC.2]
  exact xor_five_bool _ _ _ b9 b10

theorem geffe_bit_lt_two {c a b : Nat} (hc : c < 2) (ha : a < 2) (hb : b < 2) :
    geffe_bit c a b < 2 := by
  have h : ∀ c < 2, ∀ a < 2, ∀ b < 2, geffe_bit c a b < 2 := by decide
  exact h c hc a ha b hb

theorem xor_lt_two {x y : Nat} (hx : x < 2) (hy : y < 2) : x ^^^ y < 2 :=
  @Nat.xor_lt_two_pow x y 1 hx hy

theorem final_bit_lt_two (b : List Nat) (hb : ∀ i, b.getD i 0 < 2) : final_bit b < 2 := by
  unfold final_bit
  have hA := geffe_bit_lt_two (hb 0) (hb 1) (hb 2)
  have hB := geffe_bit_lt_two (hb 3) (hb 4) (hb 5)
  have hC := geffe_bit_lt_two (hb 6) (hb 7) (hb 8)
  have h := xor_lt_two (xor_lt_two (xor_lt_two (xor_lt_two hA hB) hC) (hb 9)) (hb 10)
  exact Nat.lt_of_le_of_lt (Nat.mod_le _ _) h

/-! ## Stepping the whole bank -/

theorem length_eq_eleven {α : Type} (l : List α) (h : l.length = 11) :
    ∃ a0 a1 a2 a3 a4 a5 a6 a7 a8 a9 a10, l = [a0, a1, a2, a3, a4, a5, a6, a7, a8, a9, a10] := by
  match l, h with
  | [a0, a1, a2, a3, a4, a5, a6, a7, a8, a9, a10], _ =>
    exact ⟨a0, a1, a2, a3, a4, a5, a6, a7, a8, a9, a10, rfl⟩

/-- On a bank of eleven registers the loop over the registers returns the bit of every
register in index order and steps every register once. -/
theorem step_all_eq (g : List LFSR) (hg : g.length = NUM_LFSRS) :
    step_all g = (g.map fun l => (step_lfsr l).1, g.map fun l => (step_lfsr l).2) := by
  obtain ⟨a0, a1, a2, a3, a4, a5, a6, a7, a8, a9, a10, rfl⟩ := length_eq_eleven g hg
  have hr : List.range NUM_LFSRS = [0, 1, 2, 3, 4, 5, 6, 7, 8, 9, 10] := by decide
  have hz : List.replicate NUM_LFSRS 0 = [0, 0, 0, 0, 0, 0, 0, 0, 0, 0, 0] := by decide
  unfold step_all
  rw [hr, hz]
  simp only [List.foldl, step_register, List.getElem?_cons_zero, List.getElem?_cons_succ,
    List.set_cons_zero, List.set_cons_succ, List.map_cons, List.map_nil]

/-! ## Keystream byte assembly -/

theorem shl_or_bit (r z : Nat) (hz : z < 2) : (r <<< 1) ||| z = 2 * r + z := by
  have h : 2 ^ 1 * r + z = 2 ^ 1 * r ||| z := Nat.mul_add_lt_is_or (by simpa using hz) r
  rw [Nat.shiftLeft_eq, Nat.mul_comm r (2 ^ 1), ← h, Nat.pow_one]

theorem emitted_bit_lt (l : LFSR) (k : Nat) : emitted_bit l k < 2 :=
  step_lfsr_bit_lt _

theorem getD_map_lt_two {α : Type} (f : α → Nat) (hf : ∀ a, f a < 2) (l : List α) (i : Nat) :
    (l.map f).getD i 0 < 2 := by
  by_cases h : i < (l.map f).length
  · rw [List.getD_eq_getElem _ _ h, List.getElem_map]
    exact hf _
  · rw [List.getD_eq_default _ _ (Nat.le_of_not_lt h)]
    decide

theorem combiner_output_lt (g : List LFSR) (k : Nat) : combiner_output g k < 2 :=
  final_bit_lt_two _ (getD_map_lt_two _ (fun l => emitted_bit_lt l k) g)

theorem keystream_bits_succ (n r : Nat) (g : List LFSR) :
    keystream_bits (n + 1) r g =
      keystream_bits n (((r <<< 1) ||| final_bit (step_all g).1) % 256) (step_all g).2 := by
  rw [keystream_bits]

theorem pack_bits_succ (n r : Nat) (z : Nat → Nat) :
    pack_bits (n + 1) r z = pack_bits n (((r <<< 1) ||| z 0) % 256) fun k => z (k + 1) := by
  rw [pack_bits]

theorem step_n_succ (n : Nat) (l : LFSR) : step_n (n + 1) l = step_n n (step_lfsr l).2 := by
  rw [step_n]

theorem combiner_output_zero (g : List LFSR) :
    final_bit (g.map fun l => (step_lfsr l).1) = combiner_output g 0 := by
  unfold combiner_output emitted_bit
  simp only [step_n]

theorem combiner_output_step (g : List LFSR) (k : Nat) :
    combiner_output (g.map fun l => (step_lfsr l).2) k = combiner_output g (k + 1) := by
  unfold combiner_output
  rw [List.map_map]
  apply congrArg
  apply List.map_congr_left
  intro l _
  simp only [Function.comp, emitted_bit, step_n_succ]

/-- The loop of `get_keystream_byte` on a bank of eleven registers: the byte is the
accumulation of the successive combiner outputs and every register is stepped once
per iteration. -/
theorem keystream_bits_eq (n r : Nat) (g : List LFSR) (hg : g.length = NUM_LFSRS) :
    keystream_bits n r g = (pack_bits n r (combiner_output g), g.map (step_n n)) := by
  induction n generalizing r g with
  | zero =>
    simp only [keystream_bits, pack_bits, step_n, List.map_id']
  | succ n ih =>
    have hlen : (g.map fun l => (step_lfsr l).2).length = NUM_LFSRS := by
      rw [List.length_map]
      exact hg
    have hfun : combiner_output (g.map fun l => (step_lfsr l).2) =
        fun k => combiner_output g (k + 1) := by
      funext k
      exact combiner_output_step g k
    have hmap : (g.map fun l => (step_lfsr l).2).map (step_n n) = g.map (step_n (n + 1)) := by
      rw [List.map_map]
      apply List.map_congr_left
      intro l _
      simp only [Function.comp, step_n_succ]
    rw [keystream_bits_succ, step_all_eq g hg]
    simp only []
    rw [ih _ _ hlen, combiner_output_zero, hfun, hmap, pack_bits_succ]

theorem pack_bits_eight (z : Nat → Nat) (hz : ∀ k, z k < 2) :
    pack_bits 8 0 z =
      z 0 * 128 + z 1 * 64 + z 2 * 32 + z 3 * 16 + z 4 * 8 + z 5 * 4 + z 6 * 2 + z 7 := by
  have h0 := hz 0
  have h1 := hz 1
  have h2 := hz 2
  have h3 := hz 3
  have h4 := hz 4
  have h5 := hz 5
  have h6 := hz 6
  have h7 := hz 7
  simp only [pack_bits, Nat.zero_add, Nat.reduceAdd]
  rw [shl_or_bit _ _ h0, shl_or_bit _ _ h1, shl_or_bit _ _ h2, shl_or_bit _ _ h3,
    shl_or_bit _ _ h4, shl_or_bit _ _ h5, shl_or_bit _ _ h6, shl_or_bit _ _ h7]
  omega

theorem get_keystream_byte_eq (g : List LFSR) (hg : g.length = NUM_LFSRS) :
    get_keystream_byte g = (pack_bits 8 0 (combiner_output g), g.map (step_n 8)) :=
  keystream_bits_eq 8 0 g hg

/-- C8. Keystream byte packing: for every bank of eleven registers,
`get_keystream_byte` returns the sum over `k = 0..7` of `z_k * 2 ^ (7 - k)`, where
`z_k` is the combiner output of the `k`-th clock on the bits emitted by registers
0..10 in index order; bit `7 - k` of the byte is `z_k`, so the first combiner output
is bit 7 and the eighth is bit 0. -/
theorem keystream_byte_packing (g : List LFSR) (hg : g.length = NUM_LFSRS) :
    (get_keystream_byte g).1 = ∑ k ∈ Finset.range 8, combiner_output g k * 2 ^ (7 - k) ∧
      (∀ k, k < 8 → (get_keystream_byte g).1 / 2 ^ (7 - k) % 2 = combiner_output g k) := by
  have hz := combiner_output_lt g
  have h0 := hz 0
  have h1 := hz 1
  have h2 := hz 2
  have h3 := hz 3
  have h4 := hz 4
  have h5 := hz 5
  have h6 := hz 6
  have h7 := hz 7
  rw [get_keystream_byte_eq g hg]
  show pack_bits 8 0 (combiner_output g) = _ ∧
    ∀ k, k < 8 → pack_bits 8 0 (combiner_output g) / 2 ^ (7 - k) % 2 = combiner_output g k
  rw [pack_bits_eight _ hz]
  constructor
  · simp only [Finset.sum_range_succ, Finset.sum_range_zero]
    norm_num
  · intro k hk
    interval_cases k <;> norm_num <;> omega

/-- The packing of the first keystream byte of the bank of the passphrase `bu8`. -/
theorem keystream_byte_packing_witness :
    (init_lfsrs true [0x62, 0x75, 0x38]).length = NUM_LFSRS ∧
      (get_keystream_byte (init_lfsrs true [0x62, 0x75, 0x38])).1 =
        ∑ k ∈ Finset.range 8,
          combiner_output (init_lfsrs true [0x62, 0x75, 0x38]) k * 2 ^ (7 - k) :=
  ⟨by decide, (keystream_byte_packing (init_lfsrs true [0x62, 0x75, 0x38]) (by decide)).1⟩

/-! ## Key schedule -/

theorem to_uint32_lt (x : Int) : to_uint32 x < 2 ^ 32 := by
  unfold to_uint32
  omega

theorem to_uint32_natCast (n : Nat) : to_uint32 (n : Int) = n % 2 ^ 32 := by
  unfold to_uint32
  omega

theorem index_const_eq (i : Nat) : index_const i = (i * 0x12345678) % 2 ^ 32 := by
  unfold index_const
  rw [← to_uint32_natCast]
  norm_cast

theorem mix_byte_lt (cs : Bool) (seed c : Nat) (hs : seed < 2 ^ 32) :
    mix_byte cs seed c < 2 ^ 32 := by
  unfold mix_byte
  exact Nat.xor_lt_two_pow
    (Nat.xor_lt_two_pow (Nat.mod_lt _ (Nat.two_pow_pos 32)) hs) (to_uint32_lt _)

theorem mix_byte_eq (cs : Bool) (seed c : Nat) (hs : seed < 2 ^ 32) :
    mix_byte cs seed c =
      ((seed <<< 5) ^^^ seed ^^^ to_uint32 (char_value cs c)) % 2 ^ 32 := by
  unfold mix_byte
  rw [xor_mod_two_pow, xor_mod_two_pow, Nat.mod_eq_of_lt hs,
    Nat.mod_eq_of_lt (to_uint32_lt _)]

theorem mix_key_eq (cs : Bool) (key : List Nat) (seed : Nat) (hs : seed < 2 ^ 32) :
    mix_key cs key seed =
      (key.map fun b => to_uint32 (char_value cs b)).foldl
        (fun acc b => ((acc <<< 5) ^^^ acc ^^^ b) % 2 ^ 32) seed := by
  induction key generalizing seed with
  | nil => rfl
  | cons c key ih =>
    show mix_key cs key (mix_byte cs seed c) = _
    rw [ih _ (mix_byte_lt cs seed c hs), mix_byte_eq cs seed c hs]
    rfl

theorem lfsr_seed_eq (cs : Bool) (key : List Nat) (i : Nat) :
    lfsr_seed cs key i = seed_ref (key.map fun b => to_uint32 (char_value cs b)) i := by
  unfold lfsr_seed raw_seed seed_ref acc_ref
  rw [mix_key_eq cs key _ (by decide), ← index_const_eq]

theorem init_lfsrs_getD (cs : Bool) (key : List Nat) (i : Nat) (hi : i < NUM_LFSRS) :
    (init_lfsrs cs key).getD i default =
      { state := lfsr_seed cs key i, mask := polys.getD i 0 } := by
  unfold init_lfsrs
  have hlen : i < ((List.range NUM_LFSRS).map fun i =>
      ({ state := lfsr_seed cs key i, mask := polys.getD i 0 } : LFSR)).length := by
    rw [List.length_map, List.length_range]
    exact hi
  rw [List.getD_eq_getElem _ _ hlen, List.getElem_map, List.getElem_range]

theorem unsigned_bytes_map (cs : Bool) (key : List Nat)
    (h : ∀ b ∈ key, b < 128 ∨ (cs = false ∧ b < 256)) :
    (key.map fun b => to_uint32 (char_value cs b)) = key := by
  induction key with
  | nil => rfl
  | cons b key ih =>
    have hb := h b (List.mem_cons_self _ _)
    have hrest := ih fun x hx => h x (List.mem_cons_of_mem _ hx)
    rw [List.map_cons, hrest]
    congr 1
    unfold char_value to_uint32
    rcases hb with hb | ⟨hcs, hb⟩
    · have : ¬ 128 ≤ b := by omega
      simp only [this, decide_False, Bool.and_false]
      simp only [Bool.false_eq_true, if_false]
      omega
    · subst hcs
      simp only [Bool.false_and, Bool.false_eq_true, if_false]
      omega

/-- C6 (as stated, refuted). On a platform whose `char` is signed, the passphrase of
the two bytes `0xC3 0xA9` gives register 0 the seed `0xCCCCCA50`, whereas the
reference formula on the unsigned byte values gives `0x33332A50`. -/
theorem key_schedule_unsigned_counterexample :
    ((init_lfsrs true [0xC3, 0xA9]).getD 0 default).state = 0xCCCCCA50 ∧
      seed_ref [0xC3, 0xA9] 0 = 0x33332A50 ∧
      ((init_lfsrs true [0xC3, 0xA9]).getD 0 default).state ≠ seed_ref [0xC3, 0xA9] 0 := by
  decide

/-- C6 (amended). Key schedule reference definition: for every passphrase and every
index `i` in `[0, 11)`, the seed computed by `init_lfsrs` equals the reference
formula `acc_0 = 0x5A5A5A5A`, `acc_k = ((acc_{k-1} << 5) XOR acc_{k-1} XOR b_k) mod 2^32`,
`s = acc_n XOR ((i * 0x12345678) mod 2^32)`, `seed = 1` if `s = 0`, else `s`, where
`b_k` is the value of the `k`-th `char` of the passphrase converted to `uint32_t`
(sign-extended where `char` is signed).  With every byte below 128, or with an
unsigned `char`, `b_k` is the unsigned value of the byte. -/
theorem key_schedule_reference (cs : Bool) (key : List Nat) (i : Nat) (hi : i < NUM_LFSRS) :
    ((init_lfsrs cs key).getD i default).state =
        seed_ref (key.map fun b => to_uint32 (char_value cs b)) i ∧
      ((∀ b ∈ key, b < 128 ∨ (cs = false ∧ b < 256)) →
        ((init_lfsrs cs key).getD i default).state = seed_ref key i) := by
  rw [init_lfsrs_getD cs key i hi]
  refine ⟨lfsr_seed_eq cs key i, ?_⟩
  intro h
  show lfsr_seed cs key i = seed_ref key i
  rw [lfsr_seed_eq, unsigned_bytes_map cs key h]

/-- The reference formula at the passphrase bytes `0xC3 0xA9`, signed `char`, register 1. -/
theorem key_schedule_reference_witness :
    1 < NUM_LFSRS ∧
      ((init_lfsrs true [0xC3, 0xA9]).getD 1 default).state =
        seed_ref ([0xC3, 0xA9].map fun b => to_uint32 (char_value true b)) 1 :=
  ⟨by decide, (key_schedule_reference true [0xC3, 0xA9] 1 (by decide)).1⟩

theorem index_const_inj :
    ∀ i < 11, ∀ j < 11, index_const i = index_const j → i = j := by
  decide

theorem index_const_xor_ne_one :
    ∀ i < 11, ∀ j < 11, index_const i ^^^ index_const j ≠ 1 := by
  decide

theorem lfsr_seed_def (cs : Bool) (key : List Nat) (i : Nat) :
    lfsr_seed cs key i =
      if mix_key cs key 0x5A5A5A5A ^^^ index_const i = 0 then 1
      else mix_key cs key 0x5A5A5A5A ^^^ index_const i := rfl

theorem lfsr_seed_ne_zero (cs : Bool) (key : List Nat) (i : Nat) :
    lfsr_seed cs key i ≠ 0 := by
  rw [lfsr_seed_def]
  split
  · decide
  · assumption

theorem lfsr_seed_inj (cs : Bool) (key : List Nat) (i j : Nat) (hi : i < 11) (hj : j < 11)
    (h : lfsr_seed cs key i = lfsr_seed cs key j) : i = j := by
  rw [lfsr_seed_def, lfsr_seed_def] at h
  generalize mix_key cs key 0x5A5A5A5A = a at h
  by_cases h1 : a ^^^ index_const i = 0
  · by_cases h2 : a ^^^ index_const j = 0
    · have e1 := Nat.xor_eq_zero.mp h1
      have e2 := Nat.xor_eq_zero.mp h2
      exact index_const_inj i hi j hj (e1.symm.trans e2)
    · rw [if_pos h1, if_neg h2] at h
      have e1 := Nat.xor_eq_zero.mp h1
      rw [e1] at h
      exact absurd h.symm (index_const_xor_ne_one i hi j hj)
  · by_cases h2 : a ^^^ index_const j = 0
    · rw [if_neg h1, if_pos h2] at h
      have e2 := Nat.xor_eq_zero.mp h2
      rw [e2] at h
      exact absurd h (index_const_xor_ne_one j hj i hi)
    · rw [if_neg h1, if_neg h2] at h
      exact index_const_inj i hi j hj (Nat.xor_right_inj.mp h)

theorem init_lfsrs_states (cs : Bool) (key : List Nat) :
    (init_lfsrs cs key).map LFSR.state = (List.range NUM_LFSRS).map (lfsr_seed cs key) := by
  unfold init_lfsrs
  rw [List.map_map]
  rfl

theorem init_lfsrs_length (cs : Bool) (key : List Nat) :
    (init_lfsrs cs key).length = NUM_LFSRS := by
  unfold init_lfsrs
  rw [List.length_map, List.length_range]

/-- C5. For every passphrase, `init_lfsrs` writes eleven registers whose initial
states are all nonzero and pairwise distinct. -/
theorem seeds_nonzero_distinct (cs : Bool) (key : List Nat) :
    (init_lfsrs cs key).length = NUM_LFSRS ∧
      0 ∉ (init_lfsrs cs key).map LFSR.state ∧
      ((init_lfsrs cs key).map LFSR.state).Nodup := by
  refine ⟨init_lfsrs_length cs key, ?_, ?_⟩
  · rw [init_lfsrs_states]
    intro h
    rcases List.mem_map.mp h with ⟨i, _, hi⟩
    exact lfsr_seed_ne_zero cs key i hi
  · rw [init_lfsrs_states]
    apply List.Nodup.map_on _ (List.nodup_range _)
    intro i hi j hj h
    exact lfsr_seed_inj cs key i j (List.mem_range.mp hi) (List.mem_range.mp hj) h

/-! ## Registers that fall into the zero state -/

theorem step_n_add (a b : Nat) (l : LFSR) : step_n (a + b) l = step_n b (step_n a l) := by
  induction a generalizing l with
  | zero =>
    rw [Nat.zero_add]
    rfl
  | succ a ih =>
    have h : a + 1 + b = (a + b) + 1 := by omega
    rw [h, step_n_succ, step_n_succ, ih]

theorem step_lfsr_zero (m : Nat) : step_lfsr ⟨0, m⟩ = (0, ⟨0, m⟩) := by
  unfold step_lfsr
  simp

theorem step_n_zero_state (n m : Nat) : step_n n ⟨0, m⟩ = ⟨0, m⟩ := by
  induction n with
  | zero => rfl
  | succ n ih => rw [step_n_succ, step_lfsr_zero, ih]

theorem step_n_state_zero_of_le (l : LFSR) (k n : Nat) (hk : (step_n k l).state = 0)
    (hn : k ≤ n) : (step_n n l).state = 0 := by
  obtain ⟨d, rfl⟩ := Nat.exists_eq_add_of_le hn
  rw [step_n_add]
  have h : step_n k l = ⟨0, (step_n k l).mask⟩ := by
    rw [← hk]
  rw [h, step_n_zero_state]

theorem getD_map_of_lt (f : LFSR → LFSR) (g : List LFSR) (i : Nat) (hi : i < g.length) :
    (g.map f).getD i default = f (g.getD i default) := by
  have h : i < (g.map f).length := by
    rw [List.length_map]
    exact hi
  rw [List.getD_eq_getElem _ _ h, List.getD_eq_getElem _ _ hi, List.getElem_map]

section Bank
seal get_keystream_byte

/-- Every `get_keystream_byte` call steps every register of an eleven-register bank
eight times. -/
theorem bank_after_eq (g : List LFSR) (n : Nat) (hg : g.length = NUM_LFSRS) :
    bank_after g n = g.map (step_n (8 * n)) := by
  induction n generalizing g with
  | zero =>
    rw [bank_after]
    simp only [Nat.mul_zero, step_n, List.map_id']
  | succ n ih =>
    have hlen : (g.map (step_n 8)).length = NUM_LFSRS := by
      rw [List.length_map]
      exact hg
    rw [bank_after, get_keystream_byte_eq g hg]
    simp only []
    rw [ih _ hlen, List.map_map]
    apply List.map_congr_left
    intro l _
    have h : 8 * (n + 1) = 8 + 8 * n := by omega
    simp only [Function.comp, h, step_n_add]

end Bank

theorem bu8_register_one (cs : Bool) :
    (init_lfsrs cs [0x62, 0x75, 0x38]).getD 1 default = ⟨0x4760A9ED, 0xE000⟩ := by
  cases cs <;> decide

/-- C4 (the code at the failing input). With the passphrase `bu8` register 1 starts
in the nonzero state `0x4760A9ED`; its state is 0 after 15 `step_lfsr` calls and after
every larger number of calls, hence after two or more `get_keystream_byte` calls. -/
theorem register_state_reaches_zero (cs : Bool) :
    ((init_lfsrs cs [0x62, 0x75, 0x38]).getD 1 default).state = 0x4760A9ED ∧
      (step_n 15 ((init_lfsrs cs [0x62, 0x75, 0x38]).getD 1 default)).state = 0 ∧
      (∀ n, 15 ≤ n →
        (step_n n ((init_lfsrs cs [0x62, 0x75, 0x38]).getD 1 default)).state = 0) ∧
      (∀ n, 2 ≤ n →
        ((bank_after (init_lfsrs cs [0x62, 0x75, 0x38]) n).getD 1 default).state = 0) := by
  have h15 : (step_n 15 ⟨0x4760A9ED, 0xE000⟩).state = 0 := by decide
  have hlen := init_lfsrs_length cs [0x62, 0x75, 0x38]
  refine ⟨?_, ?_, ?_, ?_⟩
  · rw [bu8_register_one]
  · rw [bu8_register_one]
    exact h15
  · intro n hn
    rw [bu8_register_one]
    exact step_n_state_zero_of_le _ 15 n h15 hn
  · intro n hn
    rw [bank_after_eq _ n hlen, getD_map_of_lt _ _ 1 (by rw [hlen]; decide),
      bu8_register_one]
    exact step_n_state_zero_of_le _ 15 (8 * n) h15 (by omega)

/-- C10 (the code at the failing input). The register of mask `0xE000` (index 1)
started in the nonzero 32-bit state `0x4760A9ED`, the seed the passphrase `bu8` gives
it, never returns to that state; and for each of the eight masks of the table whose
bit 31 is clear, the nonzero state `2 * m + 1` steps to the state 0. -/
theorem tap_masks_not_maximal :
    polys.getD 1 0 = 0xE000 ∧
      (∀ cs, (init_lfsrs cs [0x62, 0x75, 0x38]).getD 1 default = ⟨0x4760A9ED, 0xE000⟩) ∧
      (∀ n, 1 ≤ n → (step_n n ⟨0x4760A9ED, 0xE000⟩).state ≠ 0x4760A9ED) ∧
      (polys.filter fun m => decide (m < 2 ^ 31)).length = 8 ∧
      (∀ m ∈ polys, m < 2 ^ 31 → (step_lfsr ⟨2 * m + 1, m⟩).2.state = 0) := by
  have h15 : (step_n 15 ⟨0x4760A9ED, 0xE000⟩).state = 0 := by decide
  have hsmall : ∀ n < 15, 1 ≤ n → (step_n n ⟨0x4760A9ED, 0xE000⟩).state ≠ 0x4760A9ED := by
    decide
  refine ⟨by decide, bu8_register_one, ?_, by decide, by decide⟩
  intro n hn
  by_cases h : n < 15
  · exact hsmall n h hn
  · rw [step_n_state_zero_of_le _ 15 n h15 (Nat.le_of_not_lt h)]
    decide

/-! ## Files of `process_file`: temporary path and missing input -/

theorem temp_filename_length (p : List Nat) :
    (temp_filename p).length = min 1023 (p.length + 4) := by
  unfold temp_filename
  rw [List.length_take, List.length_append]
  rfl

theorem temp_filename_of_length (p : List Nat) (h : p.length = 1023) :
    temp_filename p = p := by
  unfold temp_filename
  rw [List.take_append_of_le_length (by omega), List.take_of_length_le (by omega)]

theorem temp_filename_eq_iff (p : List Nat) : temp_filename p = p ↔ p.length = 1023 := by
  constructor
  · intro h
    have hl := temp_filename_length p
    rw [h] at hl
    omega
  · exact temp_filename_of_length p

theorem transform_nil (cs : Bool) (key : List Nat) : transform cs key [] = [] := rfl

theorem fs_lookup_erase_same (fs : FileSystem) (p : List Nat) :
    fs_lookup (fs_erase fs p) p = none := by
  unfold fs_lookup fs_erase
  induction fs with
  | nil => rfl
  | cons e fs ih =>
    obtain ⟨a, b⟩ := e
    by_cases h : a = p
    · simp only [List.filter_cons, h, decide_True, Bool.not_true, Bool.false_eq_true, if_false]
      exact ih
    · simp only [List.filter_cons, h, decide_False, Bool.not_false, if_true, List.find?_cons]
      exact ih

theorem fs_lookup_erase_ne (fs : FileSystem) (p q : List Nat) (hq : q ≠ p) :
    fs_lookup (fs_erase fs p) q = fs_lookup fs q := by
  unfold fs_lookup fs_erase
  induction fs with
  | nil => rfl
  | cons e fs ih =>
    obtain ⟨a, b⟩ := e
    by_cases h : a = p
    · have hne : ¬ a = q := fun h2 => hq (h2.symm.trans h)
      simp only [List.filter_cons, h, decide_True, Bool.not_true, Bool.false_eq_true, if_false,
        List.find?_cons]
      rw [h] at hne
      simp only [hne, decide_False]
      exact ih
    · by_cases h2 : a = q
      · subst h2
        simp only [List.filter_cons, h, decide_False, Bool.not_false, if_true, List.find?_cons,
          decide_True]
      · simp only [List.filter_cons, h, decide_False, Bool.not_false, if_true, List.find?_cons,
          h2]
        exact ih

theorem fs_lookup_store_same (fs : FileSystem) (p d : List Nat) :
    fs_lookup (fs_store fs p d) p = some d := by
  simp [fs_lookup, fs_store, List.find?_cons]

theorem fs_lookup_store_ne (fs : FileSystem) (p d q : List Nat) (hq : q ≠ p) :
    fs_lookup (fs_store fs p d) q = fs_lookup fs q := by
  have h : fs_lookup (fs_store fs p d) q = fs_lookup (fs_erase fs p) q := by
    have hne : ¬ p = q := fun h => hq h.symm
    simp [fs_lookup, fs_store, List.find?_cons, hne]
  rw [h, fs_lookup_erase_ne fs p q hq]

/-- When the temporary path is the input path, the call ends with no file at the
input path. -/
theorem process_file_of_collision (env : Env) (cs : Bool) (fs : FileSystem)
    (p key d : List Nat) (hp : temp_filename p = p) (hfile : fs_lookup fs p = some d)
    (hr : env.can_read p = true) (hc : env.can_create p = true)
    (hd : env.can_remove p = true) :
    process_file env cs fs p key =
      (fs_erase (fs_store (fs_store fs p []) p []) p,
        [Event.processing, Event.remove_call p, Event.rename_call p p,
          Event.rename_failed]) := by
  unfold process_file
  simp only [hp, hfile, hr, hc, hd, fs_lookup_store_same, fs_lookup_erase_same,
    Option.isSome_some, Bool.and_self, Bool.not_true, Bool.false_eq_true, if_false, if_true,
    Option.getD_some, transform_nil]

/-- When the input path holds no file, the call only reports the failure, but it has
created or truncated the temporary file first. -/
theorem process_file_of_missing (env : Env) (cs : Bool) (fs : FileSystem)
    (p key : List Nat) (hfile : fs_lookup fs p = none)
    (hc : env.can_create (temp_filename p) = true) :
    process_file env cs fs p key =
      (fs_store fs (temp_filename p) [], [Event.perror_input]) := by
  unfold process_file
  simp only [hfile, hc, Option.isSome_none, Bool.false_and, Bool.not_false, if_true]

theorem long_path_length : long_path.length = 1023 := by
  unfold long_path
  rw [List.length_map, List.length_range]

/-- C11 (the code at the failing input). The temporary path formed by `snprintf` in
the 1024-byte buffer equals the input path exactly when the input path has 1023
characters; for the path `a/a/.../a` of 1023 characters `process_file` truncates the
input file through the temporary path, removes it and fails to rename: no file is
left. -/
theorem temp_path_equals_input_path :
    (∀ p : List Nat, temp_filename p = p ↔ p.length = 1023) ∧
      long_path.length = 1023 ∧
      (∀ b ∈ long_path, b = 0x61 ∨ b = 0x2F) ∧
      temp_filename long_path = long_path ∧
      (∀ cs key d,
        process_file permissive cs [(long_path, d)] long_path key =
          ([], [Event.processing, Event.remove_call long_path,
            Event.rename_call long_path long_path, Event.rename_failed])) := by
  have hp := temp_filename_of_length long_path long_path_length
  refine ⟨temp_filename_eq_iff, long_path_length, ?_, hp, ?_⟩
  · intro b hb
    unfold long_path at hb
    rcases List.mem_map.mp hb with ⟨i, _, rfl⟩
    by_cases h : i % 2 = 0
    · rw [if_pos h]
      exact Or.inl rfl
    · rw [if_neg h]
      exact Or.inr rfl
  · intro cs key d
    rw [process_file_of_collision permissive cs [(long_path, d)] long_path key d hp
      (by simp [fs_lookup]) rfl rfl rfl]
    simp [fs_erase, fs_store]

/-- C12 (the code at the failing input). When the input path holds no file and the
temporary file can be created, `process_file` reports the failure to open the input
and calls neither `remove` nor `rename`, every other path keeps its contents, but the
temporary path holds an empty file after the call: on an empty file system the call
for the path `x` leaves the file `x.tmp`. -/
theorem missing_input_creates_temp_file :
    (∀ env cs fs p key, fs_lookup fs p = none → env.can_create (temp_filename p) = true →
      (process_file env cs fs p key).2 = [Event.perror_input] ∧
        fs_lookup (process_file env cs fs p key).1 (temp_filename p) = some [] ∧
        ∀ q, q ≠ temp_filename p →
          fs_lookup (process_file env cs fs p key).1 q = fs_lookup fs q) ∧
      fs_lookup [] [0x78, 0x2E, 0x74, 0x6D, 0x70] = none ∧
      process_file permissive true [] [0x78] [0x6B] =
        ([([0x78, 0x2E, 0x74, 0x6D, 0x70], [])], [Event.perror_input]) := by
  refine ⟨?_, rfl, ?_⟩
  · intro env cs fs p key hfile hc
    rw [process_file_of_missing env cs fs p key hfile hc]
    refine ⟨rfl, fs_lookup_store_same _ _ _, ?_⟩
    intro q hq
    exact fs_lookup_store_ne _ _ _ q hq
  · decide

/-- C13. Stuck at zero: for every mask, a register whose state is 0 returns the bit 0
and stays in state 0 with its mask; after any number of steps the state is still 0
and the bit emitted next is 0. -/
theorem stuck_at_zero (m n : Nat) :
    step_lfsr ⟨0, m⟩ = (0, ⟨0, m⟩) ∧ step_n n ⟨0, m⟩ = ⟨0, m⟩ ∧ emitted_bit ⟨0, m⟩ n = 0 := by
  refine ⟨step_lfsr_zero m, step_n_zero_state n m, ?_⟩
  unfold emitted_bit
  rw [step_n_zero_state, step_lfsr_zero]

/-- C14. For every nonzero 32-bit state `s` and every mask `m`, one `step_lfsr` call
leaves the state 0 if and only if `s` is odd and `s >> 1` equals `m`; a step from a
nonzero even state, or with a mask whose bit 31 is set, never yields the state 0. -/
theorem step_to_zero_iff (s m : Nat) (hs0 : s ≠ 0) (hs : s < 2 ^ 32) :
    ((step_lfsr ⟨s, m⟩).2.state = 0 ↔ (s % 2 = 1 ∧ s >>> 1 = m)) ∧
      (s % 2 = 0 → (step_lfsr ⟨s, m⟩).2.state ≠ 0) ∧
      (m.testBit 31 = true → (step_lfsr ⟨s, m⟩).2.state ≠ 0) := by
  have hshift : s >>> 1 = s / 2 := by
    rw [Nat.shiftRight_eq_div_pow, Nat.pow_one]
  have heven : s % 2 = 0 → (step_lfsr ⟨s, m⟩).2.state ≠ 0 := by
    intro h
    rw [step_lfsr_state_even ⟨s, m⟩ h]
    show s >>> 1 ≠ 0
    rw [hshift]
    omega
  have hiff : (step_lfsr ⟨s, m⟩).2.state = 0 ↔ (s % 2 = 1 ∧ s >>> 1 = m) := by
    rcases Nat.mod_two_eq_zero_or_one s with h | h
    · constructor
      · intro h0
        exact absurd h0 (heven h)
      · intro h1
        omega
    · rw [step_lfsr_state_odd ⟨s, m⟩ h]
      show (s >>> 1) ^^^ m = 0 ↔ _
      rw [Nat.xor_eq_zero]
      constructor
      · intro h1
        exact ⟨h, h1⟩
      · intro h1
        exact h1.2
  refine ⟨hiff, heven, ?_⟩
  intro hbit h0
  have hm := (hiff.mp h0).2
  have hlt : s >>> 1 < 2 ^ 31 := by
    rw [hshift]
    omega
  rw [hm] at hlt
  rw [Nat.testBit_lt_two_pow hlt] at hbit
  exact Bool.noConfusion hbit

/-- The cancellation case `s = 1`, `m = 0`. -/
theorem step_to_zero_iff_witness :
    1 ≠ 0 ∧ 1 < 2 ^ 32 ∧ (step_lfsr ⟨1, 0⟩).2.state = 0 :=
  ⟨by decide, by decide,
    (step_to_zero_iff 1 0 (by decide) (by decide)).1.mpr ⟨by decide, by decide⟩⟩

theorem step_n_mask (n : Nat) (l : LFSR) : (step_n n l).mask = l.mask := by
  induction n generalizing l with
  | zero => rfl
  | succ n ih => rw [step_n_succ, ih, step_lfsr_mask]

/-- C15. For every bank of eleven registers and every index `i` in `[0, 11)`, after
one `get_keystream_byte` call register `i` is the result of eight `step_lfsr` calls on
its own previous value, with its mask unchanged; it is the same for any other bank
holding the same register at index `i`. -/
theorem keystream_byte_steps_each_register (g : List LFSR) (hg : g.length = NUM_LFSRS)
    (i : Nat) (hi : i < NUM_LFSRS) :
    (get_keystream_byte g).2.getD i default = step_n 8 (g.getD i default) ∧
      ((get_keystream_byte g).2.getD i default).mask = (g.getD i default).mask ∧
      (get_keystream_byte g).2.length = NUM_LFSRS ∧
      (∀ h : List LFSR, h.length = NUM_LFSRS → h.getD i default = g.getD i default →
        (get_keystream_byte h).2.getD i default =
          (get_keystream_byte g).2.getD i default) := by
  have key : ∀ h : List LFSR, h.length = NUM_LFSRS →
      (get_keystream_byte h).2.getD i default = step_n 8 (h.getD i default) := by
    intro h hh
    rw [get_keystream_byte_eq h hh]
    exact getD_map_of_lt _ _ i (by rw [hh]; exact hi)
  refine ⟨key g hg, ?_, ?_, ?_⟩
  · rw [key g hg, step_n_mask]
  · rw [get_keystream_byte_eq g hg]
    show (g.map (step_n 8)).length = NUM_LFSRS
    rw [List.length_map, hg]
  · intro h hh heq
    rw [key g hg, key h hh, heq]

/-- The second register of the bank of the passphrase `bu8` after one keystream byte. -/
theorem keystream_byte_steps_each_register_witness :
    (init_lfsrs true [0x62, 0x75, 0x38]).length = NUM_LFSRS ∧ 1 < NUM_LFSRS ∧
      (get_keystream_byte (init_lfsrs true [0x62, 0x75, 0x38])).2.getD 1 default =
        step_n 8 ((init_lfsrs true [0x62, 0x75, 0x38]).getD 1 default) :=
  ⟨by decide, by decide,
    (keystream_byte_steps_each_register (init_lfsrs true [0x62, 0x75, 0x38]) (by decide) 1
      (by decide)).1⟩

/-! ## Sensitivity of the combiner -/

theorem xor_five_toNat (x y z u v : Bool) :
    (x.toNat ^^^ y.toNat ^^^ z.toNat ^^^ u.toNat ^^^ v.toNat) % 256 =
      (xor (xor (xor (xor x y) z) u) v).toNat := by
  revert x y z u v
  decide

theorem final_bit_toNat (b0 b1 b2 b3 b4 b5 b6 b7 b8 b9 b10 : Bool) :
    final_bit [b0.toNat, b1.toNat, b2.toNat, b3.toNat, b4.toNat, b5.toNat, b6.toNat,
        b7.toNat, b8.toNat, b9.toNat, b10.toNat] =
      (xor (xor (xor (xor (bif b0 then b1 else b2) (bif b3 then b4 else b5))
        (bif b6 then b7 else b8)) b9) b10).toNat := by
  unfold final_bit
  simp only [List.getD_cons_zero, List.getD_cons_succ]
  rw [(geffe_bit_bool b0 b1 b2).1, (geffe_bit_bool b3 b4 b5).1, (geffe_bit_bool b6 b7 b8).1]
  exact xor_five_toNat _ _ _ b9 b10

theorem bits_of_eq (f : Nat → Bool) :
    bits_of f = [(f 0).toNat, (f 1).toNat, (f 2).toNat, (f 3).toNat, (f 4).toNat,
      (f 5).toNat, (f 6).toNat, (f 7).toNat, (f 8).toNat, (f 9).toNat, (f 10).toNat] := by
  have hr : List.range NUM_LFSRS = [0, 1, 2, 3, 4, 5, 6, 7, 8, 9, 10] := by decide
  unfold bits_of
  rw [hr]
  rfl

theorem final_bit_flip_nine (f : Nat → Bool) :
    final_bit (bits_of (flip_at f 9)) = 1 - final_bit (bits_of f) := by
  rw [bits_of_eq, bits_of_eq, final_bit_toNat, final_bit_toNat]
  simp only [flip_at]
  simp only [Nat.reduceEqDiff, if_false, if_true]
  generalize (xor (xor (bif f 0 then f 1 else f 2) (bif f 3 then f 4 else f 5))
    (bif f 6 then f 7 else f 8)) = a
  generalize f 9 = u
  generalize f 10 = v
  revert a u v
  decide

theorem final_bit_flip_ten (f : Nat → Bool) :
    final_bit (bits_of (flip_at f 10)) = 1 - final_bit (bits_of f) := by
  rw [bits_of_eq, bits_of_eq, final_bit_toNat, final_bit_toNat]
  simp only [flip_at]
  simp only [Nat.reduceEqDiff, if_false, if_true]
  generalize (xor (xor (bif f 0 then f 1 else f 2) (bif f 3 then f 4 else f 5))
    (bif f 6 then f 7 else f 8)) = a
  generalize f 9 = u
  generalize f 10 = v
  revert a u v
  decide

/-- C16. The combiner depends on every one of its eleven inputs: for each position
`j` in `0..10` there is an assignment of the bits for which flipping bit `j` flips the
combined bit, and for `j = 9` and `j = 10` flipping bit `j` flips the combined bit for
every assignment. -/
theorem combiner_depends_on_every_input :
    (∀ j, j < NUM_LFSRS →
      ∃ f : Nat → Bool, final_bit (bits_of (flip_at f j)) = 1 - final_bit (bits_of f)) ∧
      (∀ (f : Nat → Bool) (j : Nat), j = 9 ∨ j = 10 →
        final_bit (bits_of (flip_at f j)) = 1 - final_bit (bits_of f)) ∧
      (∀ f : Nat → Bool, final_bit (bits_of f) < 2) := by
  refine ⟨?_, ?_, ?_⟩
  · intro j hj
    have hj11 : j < 11 := hj
    interval_cases j
    · exact ⟨fun i => decide (i = 1), by decide⟩
    · exact ⟨fun i => decide (i = 0), by decide⟩
    · exact ⟨fun _ => false, by decide⟩
    · exact ⟨fun i => decide (i = 4), by decide⟩
    · exact ⟨fun i => decide (i = 3), by decide⟩
    · exact ⟨fun _ => false, by decide⟩
    · exact ⟨fun i => decide (i = 7), by decide⟩
    · exact ⟨fun i => decide (i = 6), by decide⟩
    · exact ⟨fun _ => false, by decide⟩
    · exact ⟨fun _ => false, by decide⟩
    · exact ⟨fun _ => false, by decide⟩
  · intro f j hj
    rcases hj with rfl | rfl
    · exact final_bit_flip_nine f
    · exact final_bit_flip_ten f
  · intro f
    rw [bits_of_eq, final_bit_toNat]
    exact Bool.toNat_lt _

/-! ## The `int` product of the key schedule -/

theorem index_const_eq_product (i : Nat) : index_const i = to_uint32 (index_product i) := rfl

/-- C19 (the code at the failing input). The product `i * 0x12345678` stays within the
range of a 32-bit `int` exactly for `i ≤ 7`; for `i = 8` its value `2443359168` exceeds
`INT_MAX = 2147483647`, and so do the products for `i = 9` and `i = 10`. -/
theorem index_product_overflows :
    index_product 8 = 2443359168 ∧ INT_MAX < index_product 8 ∧
      INT_MAX < index_product 9 ∧ INT_MAX < index_product 10 ∧
      (∀ i, i < NUM_LFSRS →
        ((INT_MIN ≤ index_product i ∧ index_product i ≤ INT_MAX) ↔ i ≤ 7)) ∧
      (∀ i, index_const i = to_uint32 (index_product i)) := by
  refine ⟨by decide, by decide, by decide, by decide, ?_, index_const_eq_product⟩
  intro i _
  unfold index_product INT_MIN INT_MAX
  omega

section Independence
seal get_keystream_byte

theorem transform_bank_eq (cs : Bool) (key data : List Nat) :
    transform_bank cs key data = bank_after (init_lfsrs cs key) data.length := by
  unfold transform_bank
  rw [process_chunks_eq_xor_buffer _ _ (fread_chunks_ne_nil _ _ _),
    fread_chunks_flatten _ _ _ (by decide) (Nat.le_refl _), xor_buffer_eq]

theorem transform_eq_xor_keystream (cs : Bool) (key data : List Nat)
    (hdata : ∀ x ∈ data, x < 256) :
    transform cs key data = xor_keystream (init_lfsrs cs key) data := by
  unfold transform xor_keystream
  rw [transform_with_eq BUFFER_SIZE (by decide)]
  exact zipWith_xor_mod _ _ hdata (keystream_lt _ _)

theorem xor_xor_same (a b k : Nat) : (a ^^^ k) ^^^ (b ^^^ k) = a ^^^ b := by
  rw [Nat.xor_comm b k, ← Nat.xor_assoc, Nat.xor_cancel_right]

theorem zipWith_xor_same_keystream (xs ys ks : List Nat) (hlen : xs.length = ys.length) :
    List.zipWith (fun x y => x ^^^ y) (List.zipWith (fun x k => x ^^^ k) xs ks)
        (List.zipWith (fun x k => x ^^^ k) ys ks) =
      List.zipWith (fun x y => x ^^^ y) (xs.take ks.length) (ys.take ks.length) := by
  induction xs generalizing ys ks with
  | nil => simp
  | cons x xs ih =>
    cases ys with
    | nil => simp at hlen
    | cons y ys =>
      cases ks with
      | nil => simp
      | cons k ks =>
        simp only [List.length_cons, Nat.add_right_cancel_iff] at hlen
        simp only [List.zipWith_cons_cons, List.length_cons, List.take_succ_cons]
        rw [xor_xor_same, ih ys ks hlen]

/-- C17. Keystream independence from data: for every passphrase and any two inputs of
equal length, the bank at the end of the transform is the same for both, each output
is its input XORed with the same keystream, and the XOR of the two outputs is the XOR
of the two inputs byte for byte. -/
theorem keystream_independent_of_data (cs : Bool) (key m1 m2 : List Nat)
    (hlen : m1.length = m2.length) (h1 : ∀ x ∈ m1, x < 256) (h2 : ∀ x ∈ m2, x < 256) :
    transform_bank cs key m1 = transform_bank cs key m2 ∧
      transform cs key m1 =
        List.zipWith (fun x k => x ^^^ k) m1 (keystream (init_lfsrs cs key) m1.length) ∧
      transform cs key m2 =
        List.zipWith (fun x k => x ^^^ k) m2 (keystream (init_lfsrs cs key) m1.length) ∧
      List.zipWith (fun x y => x ^^^ y) (transform cs key m1) (transform cs key m2) =
        List.zipWith (fun x y => x ^^^ y) m1 m2 := by
  have e1 := transform_eq_xor_keystream cs key m1 h1
  have e2 := transform_eq_xor_keystream cs key m2 h2
  unfold xor_keystream at e1 e2
  rw [← hlen] at e2
  refine ⟨?_, e1, e2, ?_⟩
  · rw [transform_bank_eq, transform_bank_eq, hlen]
  · rw [e1, e2, zipWith_xor_same_keystream _ _ _ hlen, keystream_length,
      List.take_of_length_le (Nat.le_refl _), List.take_of_length_le (by omega)]

/-- Two three-byte inputs under the passphrase `bu8`. -/
theorem keystream_independent_of_data_witness :
    [72, 105, 33].length = [1, 2, 3].length ∧ (∀ x ∈ [72, 105, 33], x < 256) ∧
      (∀ x ∈ [1, 2, 3], x < 256) ∧
      transform_bank true [0x62, 0x75, 0x38] [72, 105, 33] =
        transform_bank true [0x62, 0x75, 0x38] [1, 2, 3] :=
  ⟨by decide, by decide, by decide,
    (keystream_independent_of_data true [0x62, 0x75, 0x38] [72, 105, 33] [1, 2, 3]
      (by decide) (by decide) (by decide)).1⟩

end Independence

/-! ## Sensitivity of the key schedule to one byte -/

theorem shift_xor_injective (x y : Nat)
    (h : ((x <<< 5) % 2 ^ 32) ^^^ x = ((y <<< 5) % 2 ^ 32) ^^^ y) : x = y := by
  apply Nat.eq_of_testBit_eq
  intro i
  induction i using Nat.strong_induction_on with
  | _ i ih =>
    have hi := congrArg (fun n => Nat.testBit n i) h
    simp only [Nat.testBit_xor, Nat.testBit_mod_two_pow, Nat.testBit_shiftLeft] at hi
    by_cases h5 : 5 ≤ i
    · have hprev := ih (i - 5) (by omega)
      rw [hprev] at hi
      revert hi
      generalize (decide (i < 32) && (decide (i ≥ 5) && y.testBit (i - 5))) = c
      generalize x.testBit i = a
      generalize y.testBit i = b
      revert a b c
      decide
    · have hlt : ¬ i ≥ 5 := h5
      simp only [hlt, decide_False, Bool.false_and, Bool.and_false, Bool.false_xor] at hi
      exact hi

theorem mix_byte_injective (cs : Bool) (c : Nat) :
    Function.Injective fun acc => mix_byte cs acc c := by
  intro x y h
  simp only [mix_byte] at h
  exact shift_xor_injective x y (Nat.xor_left_inj.mp h)

theorem mix_key_injective (cs : Bool) (key : List Nat) :
    Function.Injective fun acc => mix_key cs key acc := by
  induction key with
  | nil =>
    intro x y h
    exact h
  | cons c key ih =>
    intro x y h
    exact mix_byte_injective cs c (ih h)

theorem key_byte_injective (cs : Bool) (a b : Nat) (ha : a < 256) (hb : b < 256)
    (h : to_uint32 (char_value cs a) = to_uint32 (char_value cs b)) : a = b := by
  unfold to_uint32 char_value at h
  cases cs
  · simp only [Bool.false_and, Bool.false_eq_true, if_false] at h
    omega
  · simp only [Bool.true_and, decide_eq_true_eq] at h
    split at h <;> split at h <;> omega

theorem mix_byte_ne_of_byte_ne (cs : Bool) (s a b : Nat) (ha : a < 256) (hb : b < 256)
    (hab : a ≠ b) : mix_byte cs s a ≠ mix_byte cs s b := by
  intro h
  simp only [mix_byte] at h
  exact hab (key_byte_injective cs a b ha hb (Nat.xor_right_inj.mp h))

theorem eq_of_getD_eq (l1 l2 : List Nat) (hlen : l1.length = l2.length)
    (h : ∀ q, l1.getD q 0 = l2.getD q 0) : l1 = l2 := by
  induction l1 generalizing l2 with
  | nil =>
    cases l2 with
    | nil => rfl
    | cons b l2 => simp at hlen
  | cons a l1 ih =>
    cases l2 with
    | nil => simp at hlen
    | cons b l2 =>
      have h0 : a = b := h 0
      have ht : l1 = l2 :=
        ih l2 (by simpa using hlen) fun q => h (q + 1)
      rw [h0, ht]

theorem mix_key_one_byte (cs : Bool) (k1 k2 : List Nat) (p s : Nat)
    (hlen : k1.length = k2.length) (hp : p < k1.length)
    (hdiff : k1.getD p 0 ≠ k2.getD p 0)
    (hsame : ∀ q, q ≠ p → k1.getD q 0 = k2.getD q 0)
    (hb1 : ∀ b ∈ k1, b < 256) (hb2 : ∀ b ∈ k2, b < 256) :
    mix_key cs k1 s ≠ mix_key cs k2 s := by
  induction k1 generalizing k2 p s with
  | nil => simp at hp
  | cons a k1 ih =>
    cases k2 with
    | nil => simp at hlen
    | cons b k2 =>
      have hlen2 : k1.length = k2.length := by simpa using hlen
      have ha : a < 256 := hb1 a (List.mem_cons_self _ _)
      have hb : b < 256 := hb2 b (List.mem_cons_self _ _)
      show mix_key cs k1 (mix_byte cs s a) ≠ mix_key cs k2 (mix_byte cs s b)
      cases p with
      | zero =>
        have hab : a ≠ b := hdiff
        have ht : k1 = k2 :=
          eq_of_getD_eq k1 k2 hlen2 fun q => hsame (q + 1) (by omega)
        rw [ht]
        intro h
        exact mix_byte_ne_of_byte_ne cs s a b ha hb hab (mix_key_injective cs k2 h)
      | succ p =>
        have hab : a = b := hsame 0 (by omega)
        rw [hab]
        exact ih k2 p (mix_byte cs s b) hlen2 (by simpa using hp) hdiff
          (fun q hq => hsame (q + 1) (by omega))
          (fun x hx => hb1 x (List.mem_cons_of_mem _ hx))
          (fun x hx => hb2 x (List.mem_cons_of_mem _ hx))

/-- C18. For any two passphrases of the same length that differ in exactly one byte
position, the accumulator of the key-schedule loop after all bytes differs, every
update `acc -> (acc << 5) XOR acc XOR byte` being injective in `acc`; hence for every
index `i` the values `acc XOR (i * 0x12345678)` before the zero replacement differ. -/
theorem one_byte_changes_every_seed (cs : Bool) (k1 k2 : List Nat) (p : Nat)
    (hlen : k1.length = k2.length) (hp : p < k1.length)
    (hdiff : k1.getD p 0 ≠ k2.getD p 0)
    (hsame : ∀ q, q ≠ p → k1.getD q 0 = k2.getD q 0)
    (hb1 : ∀ b ∈ k1, b < 256) (hb2 : ∀ b ∈ k2, b < 256) :
    mix_key cs k1 0x5A5A5A5A ≠ mix_key cs k2 0x5A5A5A5A ∧
      (∀ i, raw_seed cs k1 i ≠ raw_seed cs k2 i) ∧
      (∀ c, Function.Injective fun acc => mix_byte cs acc c) := by
  have hacc := mix_key_one_byte cs k1 k2 p 0x5A5A5A5A hlen hp hdiff hsame hb1 hb2
  refine ⟨hacc, ?_, mix_byte_injective cs⟩
  intro i h
  unfold raw_seed at h
  exact hacc (Nat.xor_left_inj.mp h)

/-- The passphrases `bu8` and `bu9`, which differ in their last byte. -/
theorem one_byte_changes_every_seed_witness :
    [0x62, 0x75, 0x38].length = [0x62, 0x75, 0x39].length ∧ 2 < [0x62, 0x75, 0x38].length ∧
      mix_key true [0x62, 0x75, 0x38] 0x5A5A5A5A ≠ mix_key true [0x62, 0x75, 0x39] 0x5A5A5A5A :=
  ⟨by decide, by decide,
    (one_byte_changes_every_seed true [0x62, 0x75, 0x38] [0x62, 0x75, 0x39] 2 (by decide)
      (by decide) (by decide)
      (by
        intro q hq
        match q with
        | 0 => rfl
        | 1 => rfl
        | 2 => exact absurd rfl hq
        | q + 3 => rfl)
      (by decide) (by decide)).1⟩

end GeffyCipher
